import Mathlib

/-!
Verification development for the `oidcfinder` batch-probing tool
(`main.go`).  The core of the program is modelled as follows:

* `testOIDCWithTimeout` mirrors the Go function of the same name: the
  outcome of the single HTTPS exchange is abstracted into a `NetResult`
  (request construction error, `client.Do` failure with or without the
  context deadline having been exceeded, or a completed response with a
  status code and a `Content-Type` header value), and the function maps
  it to the `(oidcURL, hasOIDC, timedOut)` triple exactly as the source
  does.
* the SQLite table `domains(name PRIMARY KEY, has_oidc)` is modelled as
  an association list `Store` with `Store.lookup` (the
  `SELECT has_oidc FROM domains WHERE name = ?` row query) and
  `Store.upsert` (the `INSERT ... ON CONFLICT(name) DO UPDATE` statement).
* the worker pool of `processFile`/`worker` is modelled as a small-step
  state machine `CState`/`cstep`: every worker is in a phase that marks
  the point between two atomic shared-resource accesses of the loop body
  of `worker` (channel receive, row query under `dbMutex`, the network
  probe, the upsert under `dbMutex`, the file append under `outMutex`,
  the send on `resultChan`), and a schedule — a list of worker indices —
  decides the interleaving.  Fallible environment interactions (the
  `Scan` error of the row query, upsert failures) are driven by oracles
  in `Env`, indexed by a per-event counter.
-/

/-- Outcome of the single HTTPS exchange of a probe, as distinguished by
the error handling in `testOIDCWithTimeout`: `reqError` is a failure of
`http.NewRequestWithContext`, `doTimeout` is a `client.Do` failure with
`ctx.Err() == context.DeadlineExceeded`, `doError` is any other
`client.Do` failure (DNS, TLS, connection refused), and `completed`
carries the response status code and the `Content-Type` header value. -/
inductive NetResult where
  | reqError : NetResult
  | doTimeout : NetResult
  | doError : NetResult
  | completed (status : Nat) (contentType : String) : NetResult
deriving DecidableEq, Repr

/-- Spec-level classification of a probe outcome (§4.1 of the spec). -/
inductive Classification where
  | Found : Classification
  | NotFound : Classification
  | TransportError : Classification
  | TimedOut : Classification
deriving DecidableEq, Repr

/-- `startsWithL s t`: the character list `s` starts with `t`
(`List.isPrefixOf` spelled out). -/
def startsWithL : List Char → List Char → Bool
  | _, [] => true
  | [], _ :: _ => false
  | a :: as, b :: bs => a == b && startsWithL as bs

/-- `containsSubL t s`: the character list `t` occurs as a contiguous
sublist of `s`. -/
def containsSubL (t : List Char) : List Char → Bool
  | [] => startsWithL [] t
  | c :: as => startsWithL (c :: as) t || containsSubL t as

/-- Go's `strings.Contains s t`: `t` is a substring of `s`. -/
def strContains (s t : String) : Bool :=
  containsSubL t.data s.data

/-- The canonical probe URL
`fmt.Sprintf("https://%s/.well-known/openid-configuration", domain)`. -/
def oidcConfigURL (domain : String) : String :=
  "https://" ++ domain ++ "/.well-known/openid-configuration"

/-- The `(oidcURL, hasOIDC, timedOut)` triple returned by
`testOIDCWithTimeout`. -/
structure ProbeTriple where
  oidcURL : String
  hasOIDC : Bool
  timedOut : Bool
deriving DecidableEq, Repr

/-- `testOIDCWithTimeout` from `main.go`:
* a request-construction error returns `("", false, false)`;
* a `client.Do` error returns `("", false, true)` when the context
  deadline was exceeded and `("", false, false)` otherwise;
* a completed exchange returns `(url, true, false)` when the status is
  200 and the `Content-Type` header contains `application/json`, and
  `("", false, false)` otherwise. -/
def testOIDCWithTimeout (domain : String) (net : NetResult) : ProbeTriple :=
  match net with
  | .reqError => ⟨"", false, false⟩
  | .doTimeout => ⟨"", false, true⟩
  | .doError => ⟨"", false, false⟩
  | .completed status ct =>
      if status = 200 ∧ strContains ct "application/json" = true then
        ⟨oidcConfigURL domain, true, false⟩
      else
        ⟨"", false, false⟩

/-- Spec-side classification of a `NetResult` (§4.1): the deadline case
is `TimedOut`; a completed exchange is `Found` exactly when the status
is 200 and the content type contains `application/json`, and `NotFound`
otherwise; every other failure is `TransportError`. -/
def classify (net : NetResult) : Classification :=
  match net with
  | .reqError => .TransportError
  | .doTimeout => .TimedOut
  | .doError => .TransportError
  | .completed status ct =>
      if status = 200 ∧ strContains ct "application/json" = true then
        .Found
      else
        .NotFound

/-- The `domains` table: a list of `(name, has_oidc)` rows. -/
abbrev Store := List (String × Bool)

/-- `SELECT has_oidc FROM domains WHERE name = ?`: the `has_oidc` value
of the row for `d`, if one exists. -/
def Store.lookup : Store → String → Option Bool
  | [], _ => none
  | (n, v) :: rest, d => if n = d then some v else Store.lookup rest d

/-- `INSERT INTO domains(name, has_oidc) VALUES(?, ?) ON CONFLICT(name)
DO UPDATE SET has_oidc=excluded.has_oidc`: overwrite the existing row
for `d` or insert a new one. -/
def Store.upsert : Store → String → Bool → Store
  | [], d, b => [(d, b)]
  | (n, v) :: rest, d, b =>
      if n = d then (d, b) :: rest else (n, v) :: Store.upsert rest d b

/-- Number of rows of the store whose `name` column is `d`. -/
def Store.rowCount (st : Store) (d : String) : Nat :=
  (st.filter (fun p => p.1 = d)).length

/-- The primary-key invariant of the `domains` table: no two rows share
a name. -/
def Store.keysNodup (st : Store) : Prop :=
  (st.map Prod.fst).Nodup

/-- The `domainResult` struct sent on `resultChan`. -/
structure DomainResult where
  domain : String
  hasOIDC : Bool
  oidcURL : String
  timedOut : Bool
deriving DecidableEq, Repr

/-- Environment oracles driving one run.  `net n d` is the network's
behaviour for the `n`-th probe issued in the run (probes are counted
globally, in the order the workers reach them); `lookupFault n` says
whether the `n`-th row query fails with a database error other than
"no rows" even though scanning might have succeeded; `upsertFault n`
says whether the `n`-th upsert `db.Exec` returns an error. -/
structure Env where
  net : Nat → String → NetResult
  lookupFault : Nat → Bool
  upsertFault : Nat → Bool

/-- Result of `db.QueryRow("SELECT has_oidc ...").Scan(&exists)` as the
worker observes it: `some b` means `err == nil` and the scanned value is
`b`; `none` means `err != nil` (either `sql.ErrNoRows` because no row
exists, or any other database error, injected by `lookupFault`). -/
def dbLookup (env : Env) (n : Nat) (st : Store) (d : String) : Option Bool :=
  if env.lookupFault n then none else Store.lookup st d

/-- The line printed synchronously by the worker for an already-known
domain: `fmt.Printf("%s: already known (has_oidc=%v)\n", domain, exists)`. -/
def knownLine (domain : String) (b : Bool) : String :=
  domain ++ ": already known (has_oidc=" ++ (if b then "true" else "false") ++ ")"

/-- The line printed by the result loop of `processFile` for one
`domainResult`. -/
def reportLine (r : DomainResult) : String :=
  if r.timedOut then r.domain ++ ": request timed out (skipped) ⏰"
  else if r.hasOIDC then r.domain ++ ": OIDC endpoint found ✅"
  else r.domain ++ ": no OIDC endpoint ❌"

/-- The reporter: one line per result consumed from the stream. -/
def reporterOutput (stream : List DomainResult) : List String :=
  stream.map reportLine

/-- The domain list read by `processFile`: each line is trimmed, blank
lines are skipped, and a non-empty prefix `pfx` is joined with `"."`. -/
def parseDomains (pfx : String) (lines : List String) : List String :=
  ((lines.map String.trim).filter (fun l => !(l = "" : Bool))).map
    (fun d => if pfx = "" then d else pfx ++ "." ++ d)

/-- Shared mutable state of one `processFile` run: the store (under
`dbMutex`), the output artifact contents (under `outMutex`), the result
stream (`resultChan`, in send order), the synchronously printed
already-known lines, the list of domains probed (in probe order), and
the per-event counters indexing the `Env` oracles. -/
structure RunState where
  store : Store
  outLines : List String
  stream : List DomainResult
  knownLines : List String
  probed : List String
  lookupCount : Nat
  probeCount : Nat
  upsertCount : Nat
deriving DecidableEq, Repr

/-- Phase of one worker, marking the point between two atomic accesses
of the loop body of `worker`:
* `idle`: about to receive from `domainChan`;
* `gotItem d`: received `d`, about to run the row query under `dbMutex`;
* `toProbe d`: the row query returned an error, about to call
  `testOIDCWithTimeout`;
* `toSink r`: probe finished with a non-timeout result, about to run the
  upsert under `dbMutex`;
* `toAppend r`: upsert done, about to append to the output file under
  `outMutex`;
* `toEmit r`: about to send `r` on `resultChan`;
* `finished`: `domainChan` was empty and closed, the goroutine returned. -/
inductive WPhase where
  | idle : WPhase
  | gotItem (d : String) : WPhase
  | toProbe (d : String) : WPhase
  | toSink (r : DomainResult) : WPhase
  | toAppend (r : DomainResult) : WPhase
  | toEmit (r : DomainResult) : WPhase
  | finished : WPhase
deriving DecidableEq, Repr

/-- The domain a worker currently holds, if any. -/
def phaseDomain : WPhase → Option String
  | .idle => none
  | .finished => none
  | .gotItem d => some d
  | .toProbe d => some d
  | .toSink r => some r.domain
  | .toAppend r => some r.domain
  | .toEmit r => some r.domain

/-- Global state of a run: remaining queue (`domainChan` was filled with
the whole input and closed before the workers were started), the phase
of every worker, and the shared state. -/
structure CState where
  queue : List String
  workers : List WPhase
  shared : RunState
deriving DecidableEq, Repr

/-- One atomic action of worker `w`, given its current phase. -/
def stepPhase (env : Env) (outCfg : Bool) (s : CState) (w : Nat) : WPhase → CState
  | .finished => s
  | .idle =>
      match s.queue with
      | [] => { s with workers := s.workers.set w .finished }
      | d :: rest => { queue := rest, workers := s.workers.set w (.gotItem d), shared := s.shared }
  | .gotItem d =>
      match dbLookup env s.shared.lookupCount s.shared.store d with
      | some b =>
          { s with
              workers := s.workers.set w .idle,
              shared := { s.shared with
                  knownLines := s.shared.knownLines ++ [knownLine d b],
                  lookupCount := s.shared.lookupCount + 1 } }
      | none =>
          { s with
              workers := s.workers.set w (.toProbe d),
              shared := { s.shared with lookupCount := s.shared.lookupCount + 1 } }
  | .toProbe d =>
      let t := testOIDCWithTimeout d (env.net s.shared.probeCount d)
      let r : DomainResult := ⟨d, t.hasOIDC, t.oidcURL, t.timedOut⟩
      let sh := { s.shared with
          probed := s.shared.probed ++ [d],
          probeCount := s.shared.probeCount + 1 }
      if t.timedOut then
        { s with workers := s.workers.set w (.toEmit r), shared := sh }
      else
        { s with workers := s.workers.set w (.toSink r), shared := sh }
  | .toSink r =>
      let st1 := if env.upsertFault s.shared.upsertCount then s.shared.store
                 else Store.upsert s.shared.store r.domain r.hasOIDC
      let sh := { s.shared with
          store := st1,
          upsertCount := s.shared.upsertCount + 1 }
      if r.hasOIDC && outCfg then
        { s with workers := s.workers.set w (.toAppend r), shared := sh }
      else
        { s with workers := s.workers.set w (.toEmit r), shared := sh }
  | .toAppend r =>
      { s with
          workers := s.workers.set w (.toEmit r),
          shared := { s.shared with outLines := s.shared.outLines ++ [r.oidcURL] } }
  | .toEmit r =>
      { s with
          workers := s.workers.set w .idle,
          shared := { s.shared with stream := s.shared.stream ++ [r] } }

/-- One scheduler step: worker `w` performs its next atomic action (a
no-op if `w` is out of range). -/
def cstep (env : Env) (outCfg : Bool) (s : CState) (w : Nat) : CState :=
  match s.workers[w]? with
  | none => s
  | some ph => stepPhase env outCfg s w ph

/-- A whole run under a schedule: the list of worker indices chosen by
the scheduler, performed in order. -/
def crun (env : Env) (outCfg : Bool) (sched : List Nat) (s : CState) : CState :=
  sched.foldl (cstep env outCfg) s

/-- Initial state of `processFile`: the entire input list is placed in
the queue (and the queue closed) before any of the `P` workers starts;
stream, output lines, known lines and counters start empty. -/
def mkInit (input : List String) (P : Nat) (st0 : Store) : CState :=
  ⟨input, List.replicate P .idle, ⟨st0, [], [], [], [], 0, 0, 0⟩⟩

/-- The run is over: the queue is drained and every worker goroutine has
returned, so `wg.Wait()` has unblocked and `resultChan` is closed. -/
def allDone (s : CState) : Prop :=
  s.queue = [] ∧ ∀ ph ∈ s.workers, ph = WPhase.finished

instance : DecidablePred allDone := fun s => by
  unfold allDone
  infer_instance

/-- Number of workers whose phase satisfies `f`. -/
def cntW (f : WPhase → Bool) : List WPhase → Nat
  | [] => 0
  | ph :: ws => (if f ph then 1 else 0) + cntW f ws

/-- Worker phases that certify a successful upsert for `d` whose result
has not yet been emitted: `toAppend`/`toEmit` holding a non-timeout
result for `d`. -/
def evPend (d : String) : WPhase → Bool
  | .toAppend r => (r.domain == d) && !r.timedOut
  | .toEmit r => (r.domain == d) && !r.timedOut
  | _ => false

/-- Worker phases that certify `d` has been taken past a failed lookup:
the worker is about to probe `d`, or holds a probe result for `d`. -/
def evAny (d : String) : WPhase → Bool
  | .toProbe x => x == d
  | .toSink r => r.domain == d
  | .toAppend r => r.domain == d
  | .toEmit r => r.domain == d
  | _ => false

/-- Worker phases that would be ill-formed: a sink or append phase
holding a timed-out result for `d` (the worker only reaches the sink
when the probe did not time out). -/
def badTO (d : String) : WPhase → Bool
  | .toSink r => (r.domain == d) && r.timedOut
  | .toAppend r => (r.domain == d) && r.timedOut
  | _ => false

/-- Number of stream entries for domain `d`. -/
def scAll (d : String) (stream : List DomainResult) : Nat :=
  (stream.filter (fun r => r.domain == d)).length

/-- Number of non-timeout stream entries for domain `d`. -/
def scNT (d : String) (stream : List DomainResult) : Nat :=
  (stream.filter (fun r => (r.domain == d) && !r.timedOut)).length

/-- The most recent streamed outcome for domain `d`. -/
def lastFor (stream : List DomainResult) (d : String) : Option DomainResult :=
  (stream.filter (fun r => r.domain == d)).getLast?

/-- Inductive invariant behind the timeout-persistence property: when
row queries never fault, (1) no sink/append phase holds a timed-out
result for `d`; (2) the store can lose a row for `d` only if it never
had one; (3) the store entry for `d` differs from the initial one only
if a successful upsert for `d` already happened, witnessed by a pending
or emitted non-timeout result; (4) any probe activity for `d` implies
the initial store had no row for `d`. -/
def C1Inv (st0s : Store) (d : String) (s : CState) : Prop :=
  cntW (badTO d) s.workers = 0
  ∧ (Store.lookup s.shared.store d = none → Store.lookup st0s d = none)
  ∧ (Store.lookup s.shared.store d = Store.lookup st0s d
      ∨ 1 ≤ cntW (evPend d) s.workers ∨ 1 ≤ scNT d s.shared.stream)
  ∧ (1 ≤ cntW (evAny d) s.workers + scAll d s.shared.stream
      → Store.lookup st0s d = none)

/-- Inductive invariant behind the idempotence property: when every
queued domain is already recorded and row queries never fault, the run
never leaves the lookup/report-known path: the store is untouched,
nothing is probed, streamed or appended, and every worker is idle,
finished, or holding an already-recorded domain. -/
def C5Inv (st0s : Store) (s : CState) : Prop :=
  s.shared.store = st0s
  ∧ s.shared.probed = []
  ∧ s.shared.stream = []
  ∧ s.shared.outLines = []
  ∧ (∀ ph ∈ s.workers, ph = WPhase.idle ∨ ph = WPhase.finished
      ∨ ∃ x, ph = WPhase.gotItem x ∧ (Store.lookup st0s x).isSome = true)
  ∧ (∀ x ∈ s.queue, (Store.lookup st0s x).isSome = true)

/-- Conservation of work items: every input domain is in the queue, held
by a worker, retired as an already-known line, or retired as a streamed
outcome. -/
def itemsInv (N : Nat) (s : CState) : Prop :=
  s.queue.length + cntW (fun ph => (phaseDomain ph).isSome) s.workers
    + s.shared.knownLines.length + s.shared.stream.length = N

/-- Network behaviour for the duplicate-domain race refuting the
timeout-persistence claim: the first probe issued in the run completes
with a 404, the second one times out. -/
def envC1x : Env :=
  ⟨fun n _ => if n = 0 then NetResult.completed 404 "" else NetResult.doTimeout,
   fun _ => false, fun _ => false⟩

/-- Schedule for the duplicate-domain race: both workers dequeue and
pass the lookup before either probes; worker 1 probes (404) and upserts,
then worker 0 probes (timeout) and emits last. -/
def schedC1x : List Nat := [0, 1, 0, 1, 1, 1, 1, 0, 0, 0, 1]

/-- Network behaviour for the duplicate-domain scenario of the
enqueue-no-dedup claim: the first probe finds an endpoint, the second
completes with a 404. -/
def envC4 : Env :=
  ⟨fun n _ => if n = 0 then NetResult.completed 200 "application/json"
              else NetResult.completed 404 "",
   fun _ => false, fun _ => false⟩

/-- Schedule for the duplicate-domain scenario: both workers pass the
lookup before either upserts; worker 0 probes and upserts `true` first,
worker 1 probes and upserts `false` last. -/
def schedC4 : List Nat := [0, 1, 0, 1, 0, 0, 0, 1, 1, 1, 0, 1]

/-- Environment whose probes always fail before a response without
exceeding the deadline (DNS/TLS/connection failure). -/
def envErr : Env := ⟨fun _ _ => NetResult.doError, fun _ => false, fun _ => false⟩

/-- Environment whose probes always hit the configured deadline. -/
def envTO : Env := ⟨fun _ _ => NetResult.doTimeout, fun _ => false, fun _ => false⟩

/-- Environment whose probes always find an OIDC configuration. -/
def envOK : Env :=
  ⟨fun _ _ => NetResult.completed 200 "application/json", fun _ => false, fun _ => false⟩

/-- Environment for the failed-upsert scenario: the first probe finds an
endpoint but its upsert fails; the second probe completes with a 404 and
persists normally. -/
def envC8 : Env :=
  ⟨fun n _ => if n = 0 then NetResult.completed 200 "application/json"
              else NetResult.completed 404 "",
   fun _ => false, fun n => n = 0⟩

/-- Environment for the failed-lookup scenario: the first row query
fails with a database error, and the probe completes with a 404. -/
def envC10 : Env :=
  ⟨fun _ _ => NetResult.completed 404 "", fun n => n = 0, fun _ => false⟩

/-- A one-worker state holding `toProbe "a"`, used to exercise the
timeout step. -/
def stItemProbe : CState :=
  ⟨[], [WPhase.toProbe "a"], ⟨[], [], [], [], [], 0, 0, 0⟩⟩

/-- A one-worker state holding `gotItem "a"` over a store that already
records `"a"`. -/
def stItemKnown : CState :=
  ⟨[], [WPhase.gotItem "a"], ⟨[("a", true)], [], [], [], [], 0, 0, 0⟩⟩

/-- A one-worker state holding a found result for `"a"` about to be
sunk. -/
def stItemSink : CState :=
  ⟨[], [WPhase.toSink ⟨"a", true, "u", false⟩], ⟨[], [], [], [], [], 0, 0, 0⟩⟩

/-- A one-worker state holding `gotItem "a"` over a store that already
records `"a"`, for the failed-lookup scenario. -/
def stItemFault : CState :=
  ⟨[], [WPhase.gotItem "a"], ⟨[("a", true)], [], [], [], [], 0, 0, 0⟩⟩

theorem Store.lookup_upsert_self (st : Store) (d : String) (b : Bool) :
    (st.upsert d b).lookup d = some b := by
  induction st with
  | nil => simp [Store.upsert, Store.lookup]
  | cons p rest ih =>
      obtain ⟨n, v⟩ := p
      by_cases h : n = d
      · simp [Store.upsert, Store.lookup, h]
      · simp [Store.upsert, Store.lookup, h, ih]

theorem Store.lookup_upsert_other (st : Store) (d d' : String) (b : Bool)
    (h : d' ≠ d) : (st.upsert d b).lookup d' = st.lookup d' := by
  have hdd : ¬ d = d' := fun hh => h hh.symm
  induction st with
  | nil => simp [Store.upsert, Store.lookup, hdd]
  | cons p rest ih =>
      obtain ⟨n, v⟩ := p
      by_cases hn : n = d
      · subst hn
        simp [Store.upsert, Store.lookup, hdd]
      · by_cases hn' : n = d'
        · simp [Store.upsert, Store.lookup, hn, hn', h]
        · simp [Store.upsert, Store.lookup, hn, hn', ih]

theorem Store.lookup_ne_none_of_upsert (st : Store) (d d' : String) (b : Bool)
    (h : (st.upsert d b).lookup d' = none) : st.lookup d' = none := by
  by_cases hd : d' = d
  · subst hd
    rw [Store.lookup_upsert_self] at h
    exact absurd h (by simp)
  · rwa [Store.lookup_upsert_other st d d' b hd] at h

theorem Store.mem_keys_upsert (st : Store) (d : String) (b : Bool) (n : String)
    (h : n ∈ (Store.upsert st d b).map Prod.fst) :
    n ∈ st.map Prod.fst ∨ n = d := by
  induction st with
  | nil =>
      right
      simpa [Store.upsert] using h
  | cons q qs ihq =>
      obtain ⟨m, w⟩ := q
      by_cases hm : m = d
      · rw [show Store.upsert ((m, w) :: qs) d b = (d, b) :: qs by
          simp [Store.upsert, hm]] at h
        rw [List.map_cons, List.mem_cons] at h
        rcases h with h1 | h1
        · exact Or.inr h1
        · left
          rw [List.map_cons, List.mem_cons]
          exact Or.inr h1
      · rw [show Store.upsert ((m, w) :: qs) d b = (m, w) :: Store.upsert qs d b by
          simp [Store.upsert, hm]] at h
        rw [List.map_cons, List.mem_cons] at h
        rcases h with h1 | h1
        · left
          rw [List.map_cons, List.mem_cons]
          exact Or.inl h1
        · rcases ihq h1 with h2 | h2
          · left
            rw [List.map_cons, List.mem_cons]
            exact Or.inr h2
          · exact Or.inr h2

theorem Store.keysNodup_upsert (st : Store) (d : String) (b : Bool)
    (h : Store.keysNodup st) : Store.keysNodup (Store.upsert st d b) := by
  induction st with
  | nil => simp [Store.upsert, Store.keysNodup]
  | cons p rest ih =>
      obtain ⟨n, v⟩ := p
      simp only [Store.keysNodup, List.map_cons, List.nodup_cons] at h
      by_cases hn : n = d
      · subst hn
        rw [show Store.upsert ((n, v) :: rest) n b = (n, b) :: rest by
          simp [Store.upsert]]
        simp only [Store.keysNodup, List.map_cons, List.nodup_cons]
        exact ⟨h.1, h.2⟩
      · have hrest := ih h.2
        rw [show Store.upsert ((n, v) :: rest) d b = (n, v) :: Store.upsert rest d b by
          simp [Store.upsert, hn]]
        simp only [Store.keysNodup, List.map_cons, List.nodup_cons]
        refine ⟨fun hmem => ?_, hrest⟩
        rcases Store.mem_keys_upsert rest d b n hmem with h1 | h1
        · exact h.1 h1
        · exact hn h1

theorem Store.rowCount_eq_zero_of_not_mem (st : Store) (d : String)
    (h : d ∉ st.map Prod.fst) : Store.rowCount st d = 0 := by
  induction st with
  | nil => rfl
  | cons p rest ih =>
      obtain ⟨n, v⟩ := p
      simp only [List.map_cons, List.mem_cons] at h
      push_neg at h
      have hn : ¬ (n = d) := fun hh => h.1 hh.symm
      simp only [Store.rowCount, List.filter_cons]
      rw [if_neg (by simpa using hn)]
      exact ih h.2

theorem Store.rowCount_le_one_of_keysNodup (st : Store) (d : String)
    (h : Store.keysNodup st) : Store.rowCount st d ≤ 1 := by
  induction st with
  | nil => simp [Store.rowCount]
  | cons p rest ih =>
      obtain ⟨n, v⟩ := p
      simp only [Store.keysNodup, List.map_cons, List.nodup_cons] at h
      have hrest := ih h.2
      by_cases hn : n = d
      · subst hn
        have hzero := Store.rowCount_eq_zero_of_not_mem rest n h.1
        simp only [Store.rowCount, List.filter_cons] at hzero ⊢
        rw [if_pos (by simp)]
        simp only [List.length_cons]
        omega
      · simp only [Store.rowCount, List.filter_cons] at hrest ⊢
        rw [if_neg (by simpa using hn)]
        exact hrest

theorem crun_append (env : Env) (outCfg : Bool) (σ1 σ2 : List Nat) (s : CState) :
    crun env outCfg (σ1 ++ σ2) s = crun env outCfg σ2 (crun env outCfg σ1 s) := by
  simp [crun, List.foldl_append]

theorem crun_cons (env : Env) (outCfg : Bool) (w : Nat) (σ : List Nat) (s : CState) :
    crun env outCfg (w :: σ) s = crun env outCfg σ (cstep env outCfg s w) := by
  simp [crun, List.foldl_cons]

theorem cstep_of_phase (env : Env) (outCfg : Bool) (s : CState) (w : Nat)
    (ph : WPhase) (h : s.workers[w]? = some ph) :
    cstep env outCfg s w = stepPhase env outCfg s w ph := by
  simp [cstep, h]

theorem cntW_set (f : WPhase → Bool) (ws : List WPhase) (w : Nat) (ph ph' : WPhase)
    (h : ws[w]? = some ph) :
    cntW f (ws.set w ph') + (if f ph then 1 else 0)
      = cntW f ws + (if f ph' then 1 else 0) := by
  induction ws generalizing w with
  | nil => simp at h
  | cons q qs ih =>
      cases w with
      | zero =>
          simp only [List.getElem?_cons_zero, Option.some_inj] at h
          subst h
          simp only [List.set_cons_zero, cntW]
          omega
      | succ n =>
          simp only [List.getElem?_cons_succ] at h
          have := ih n h
          simp only [List.set_cons_succ, cntW]
          omega

theorem cntW_eq_zero_of_all_finished (f : WPhase → Bool) (ws : List WPhase)
    (hf : f .finished = false) (h : ∀ ph ∈ ws, ph = WPhase.finished) :
    cntW f ws = 0 := by
  induction ws with
  | nil => rfl
  | cons q qs ih =>
      have hq : q = WPhase.finished := h q (by simp)
      subst hq
      simp only [cntW, hf, if_false]
      simpa using ih (fun ph hph => h ph (by simp [hph]))

theorem mem_of_mem_set (ws : List WPhase) (w : Nat) (ph' : WPhase)
    (x : WPhase) (h : x ∈ ws.set w ph') : x ∈ ws ∨ x = ph' := by
  induction ws generalizing w with
  | nil => simp at h
  | cons q qs ih =>
      cases w with
      | zero =>
          simp only [List.set_cons_zero, List.mem_cons] at h
          rcases h with h | h
          · exact Or.inr h
          · exact Or.inl (List.mem_cons_of_mem q h)
      | succ n =>
          simp only [List.set_cons_succ, List.mem_cons] at h
          rcases h with h | h
          · exact Or.inl (h ▸ List.mem_cons_self q qs)
          · rcases ih n h with h1 | h1
            · exact Or.inl (List.mem_cons_of_mem q h1)
            · exact Or.inr h1

/-- Evaluation of a one-domain, one-worker run in which the row query
returns an error (no row, or an injected fault) and the probe does not
time out: the worker dequeues, fails the lookup, probes, upserts (unless
the upsert faults), appends when the outcome is found and an output file
is configured, emits the result, and finishes. -/
theorem singleRun (env : Env) (cfg : Bool) (d : String) (st0s : Store)
    (hlook : dbLookup env 0 st0s d = none)
    (ht : (testOIDCWithTimeout d (env.net 0 d)).timedOut = false) :
    crun env cfg (List.replicate 7 0) (mkInit [d] 1 st0s) =
      ⟨[], [WPhase.finished],
       ⟨(if env.upsertFault 0 = true then st0s
         else Store.upsert st0s d (testOIDCWithTimeout d (env.net 0 d)).hasOIDC),
        (if (testOIDCWithTimeout d (env.net 0 d)).hasOIDC && cfg then
           [(testOIDCWithTimeout d (env.net 0 d)).oidcURL] else []),
        [⟨d, (testOIDCWithTimeout d (env.net 0 d)).hasOIDC,
             (testOIDCWithTimeout d (env.net 0 d)).oidcURL, false⟩],
        [], [d], 1, 1, 1⟩⟩ := by
  by_cases hc : ((testOIDCWithTimeout d (env.net 0 d)).hasOIDC && cfg) = true
  · simp [crun, List.replicate, mkInit, cstep, stepPhase, hlook, ht, hc]
  · simp only [Bool.not_eq_true] at hc
    simp [crun, List.replicate, mkInit, cstep, stepPhase, hlook, ht, hc]

/-- Evaluation of a one-domain, one-worker run in which the row query
returns an error and the probe times out: the worker dequeues, fails the
lookup, probes, skips both the upsert and the append, emits the result,
and finishes. -/
theorem singleRunTimeout (env : Env) (cfg : Bool) (d : String) (st0s : Store)
    (hlook : dbLookup env 0 st0s d = none)
    (ht : (testOIDCWithTimeout d (env.net 0 d)).timedOut = true) :
    crun env cfg (List.replicate 7 0) (mkInit [d] 1 st0s) =
      ⟨[], [WPhase.finished],
       ⟨st0s, [],
        [⟨d, (testOIDCWithTimeout d (env.net 0 d)).hasOIDC,
             (testOIDCWithTimeout d (env.net 0 d)).oidcURL, true⟩],
        [], [d], 1, 1, 0⟩⟩ := by
  simp [crun, List.replicate, mkInit, cstep, stepPhase, hlook, ht]

/-- Evaluation of a one-domain, one-worker run in which the row query
succeeds: the worker reports the domain as already known and finishes,
touching nothing else. -/
theorem singleRunKnown (env : Env) (cfg : Bool) (d : String) (st0s : Store) (b : Bool)
    (hlook : dbLookup env 0 st0s d = some b) :
    crun env cfg (List.replicate 7 0) (mkInit [d] 1 st0s) =
      ⟨[], [WPhase.finished],
       ⟨st0s, [], [], [knownLine d b], [], 1, 0, 0⟩⟩ := by
  simp [crun, List.replicate, mkInit, cstep, stepPhase, hlook]

/-- C2: for every completed HTTP exchange, the probe classifies the
domain as Found exactly when the response status is 200 and the
`Content-Type` header contains `application/json`; a Found result
carries the canonical probe URL
`https://{domain}/.well-known/openid-configuration`, and if either
condition fails the outcome is NotFound. -/
theorem claimC2 (domain : String) (status : Nat) (ct : String) :
    ((testOIDCWithTimeout domain (NetResult.completed status ct)).hasOIDC = true
        ↔ (status = 200 ∧ strContains ct "application/json" = true))
  ∧ (testOIDCWithTimeout domain (NetResult.completed status ct)).oidcURL
        = (if status = 200 ∧ strContains ct "application/json" = true
           then oidcConfigURL domain else "")
  ∧ (testOIDCWithTimeout domain (NetResult.completed status ct)).timedOut = false
  ∧ (classify (NetResult.completed status ct) = Classification.Found
        ↔ (status = 200 ∧ strContains ct "application/json" = true))
  ∧ classify (NetResult.completed status ct)
        = (if status = 200 ∧ strContains ct "application/json" = true
           then Classification.Found else Classification.NotFound) := by
  by_cases h : status = 200 ∧ strContains ct "application/json" = true
  · simp [testOIDCWithTimeout, classify, h]
  · simp [testOIDCWithTimeout, classify, h]

theorem cntW_pos (f : WPhase → Bool) (ws : List WPhase) (w : Nat) (ph : WPhase)
    (hw : ws[w]? = some ph) (hf : f ph = true) : 1 ≤ cntW f ws := by
  induction ws generalizing w with
  | nil => simp at hw
  | cons q qs ih =>
      cases w with
      | zero =>
          simp only [List.getElem?_cons_zero, Option.some_inj] at hw
          subst hw
          simp [cntW, hf]
      | succ n =>
          simp only [List.getElem?_cons_succ] at hw
          have := ih n hw
          simp only [cntW]
          omega

theorem scAll_append (d : String) (l : List DomainResult) (r : DomainResult) :
    scAll d (l ++ [r]) = scAll d l + (if (r.domain == d) = true then 1 else 0) := by
  simp only [scAll, List.filter_append, List.length_append]
  cases h : r.domain == d <;> simp [h]

theorem scNT_append (d : String) (l : List DomainResult) (r : DomainResult) :
    scNT d (l ++ [r])
      = scNT d l + (if ((r.domain == d) && !r.timedOut) = true then 1 else 0) := by
  simp only [scNT, List.filter_append, List.length_append]
  cases h : (r.domain == d) && !r.timedOut <;> simp [h]

theorem crun_inv (P : CState → Prop) (env : Env) (outCfg : Bool)
    (hstep : ∀ s w, P s → P (cstep env outCfg s w)) :
    ∀ (sched : List Nat) (s : CState), P s → P (crun env outCfg sched s) := by
  intro sched
  induction sched with
  | nil => intro s h; exact h
  | cons a t ih =>
      intro s h
      rw [crun_cons]
      exact ih _ (hstep s a h)

theorem keysNodup_cstep (env : Env) (outCfg : Bool) (s : CState) (w : Nat)
    (h : Store.keysNodup s.shared.store) :
    Store.keysNodup (cstep env outCfg s w).shared.store := by
  cases hw : s.workers[w]? with
  | none => simpa [cstep, hw] using h
  | some ph =>
      rw [cstep_of_phase env outCfg s w ph hw]
      cases ph with
      | finished => exact h
      | idle =>
          cases hq : s.queue with
          | nil => simpa [stepPhase, hq] using h
          | cons d0 rest => simpa [stepPhase, hq] using h
      | gotItem d0 =>
          cases hlk : dbLookup env s.shared.lookupCount s.shared.store d0 with
          | none => simpa [stepPhase, hlk] using h
          | some b => simpa [stepPhase, hlk] using h
      | toProbe d0 =>
          by_cases ht : (testOIDCWithTimeout d0 (env.net s.shared.probeCount d0)).timedOut = true
          · simpa [stepPhase, ht] using h
          · simp only [Bool.not_eq_true] at ht
            simpa [stepPhase, ht] using h
      | toSink r =>
          by_cases hb : (r.hasOIDC && outCfg) = true
          · by_cases hfau : env.upsertFault s.shared.upsertCount = true
            · simpa [stepPhase, hb, hfau] using h
            · simp only [Bool.not_eq_true] at hfau
              simpa [stepPhase, hb, hfau] using Store.keysNodup_upsert _ _ _ h
          · simp only [Bool.not_eq_true] at hb
            by_cases hfau : env.upsertFault s.shared.upsertCount = true
            · simpa [stepPhase, hb, hfau] using h
            · simp only [Bool.not_eq_true] at hfau
              simpa [stepPhase, hb, hfau] using Store.keysNodup_upsert _ _ _ h
      | toAppend r => simpa [stepPhase] using h
      | toEmit r => simpa [stepPhase] using h

theorem keysNodup_crun (env : Env) (outCfg : Bool) (sched : List Nat) (s : CState)
    (h : Store.keysNodup s.shared.store) :
    Store.keysNodup (crun env outCfg sched s).shared.store :=
  crun_inv (fun s => Store.keysNodup s.shared.store) env outCfg
    (fun s w hs => keysNodup_cstep env outCfg s w hs) sched s h

theorem C1Inv_cstep (env : Env) (outCfg : Bool) (st0s : Store) (d : String)
    (s : CState) (w : Nat) (hf : ∀ n, env.lookupFault n = false)
    (h : C1Inv st0s d s) : C1Inv st0s d (cstep env outCfg s w) := by
  obtain ⟨h1, h2, h3, h4⟩ := h
  cases hw : s.workers[w]? with
  | none =>
      simp only [cstep, hw]
      exact ⟨h1, h2, h3, h4⟩
  | some ph =>
    rw [cstep_of_phase env outCfg s w ph hw]
    cases ph with
    | finished => exact ⟨h1, h2, h3, h4⟩
    | idle =>
        cases hq : s.queue with
        | nil =>
            have hbad := cntW_set (badTO d) s.workers w WPhase.idle WPhase.finished hw
            have hpend := cntW_set (evPend d) s.workers w WPhase.idle WPhase.finished hw
            have hany := cntW_set (evAny d) s.workers w WPhase.idle WPhase.finished hw
            simp only [badTO, evPend, evAny] at hbad hpend hany
            simp only [stepPhase, hq, C1Inv]
            refine ⟨by omega, h2, ?_, fun hsum => h4 (by omega)⟩
            rcases h3 with h3 | h3 | h3
            · exact Or.inl h3
            · exact Or.inr (Or.inl (by omega))
            · exact Or.inr (Or.inr h3)
        | cons d0 rest =>
            have hbad := cntW_set (badTO d) s.workers w WPhase.idle (WPhase.gotItem d0) hw
            have hpend := cntW_set (evPend d) s.workers w WPhase.idle (WPhase.gotItem d0) hw
            have hany := cntW_set (evAny d) s.workers w WPhase.idle (WPhase.gotItem d0) hw
            simp only [badTO, evPend, evAny] at hbad hpend hany
            simp only [stepPhase, hq, C1Inv]
            refine ⟨by omega, h2, ?_, fun hsum => h4 (by omega)⟩
            rcases h3 with h3 | h3 | h3
            · exact Or.inl h3
            · exact Or.inr (Or.inl (by omega))
            · exact Or.inr (Or.inr h3)
    | gotItem d0 =>
        cases hlk : dbLookup env s.shared.lookupCount s.shared.store d0 with
        | some b =>
            have hbad := cntW_set (badTO d) s.workers w (WPhase.gotItem d0) WPhase.idle hw
            have hpend := cntW_set (evPend d) s.workers w (WPhase.gotItem d0) WPhase.idle hw
            have hany := cntW_set (evAny d) s.workers w (WPhase.gotItem d0) WPhase.idle hw
            simp only [badTO, evPend, evAny] at hbad hpend hany
            simp only [stepPhase, hlk, C1Inv]
            refine ⟨by omega, h2, ?_, fun hsum => h4 (by omega)⟩
            rcases h3 with h3 | h3 | h3
            · exact Or.inl h3
            · exact Or.inr (Or.inl (by omega))
            · exact Or.inr (Or.inr h3)
        | none =>
            have hbad := cntW_set (badTO d) s.workers w (WPhase.gotItem d0) (WPhase.toProbe d0) hw
            have hpend := cntW_set (evPend d) s.workers w (WPhase.gotItem d0) (WPhase.toProbe d0) hw
            have hany := cntW_set (evAny d) s.workers w (WPhase.gotItem d0) (WPhase.toProbe d0) hw
            simp only [badTO, evPend, evAny] at hbad hpend hany
            simp only [stepPhase, hlk, C1Inv]
            by_cases hd : d0 = d
            · subst hd
              have hsl : Store.lookup s.shared.store d0 = none := by
                simpa [dbLookup, hf s.shared.lookupCount] using hlk
              have h0 : Store.lookup st0s d0 = none := h2 hsl
              simp only [beq_self_eq_true, if_true] at hany
              refine ⟨by omega, h2, ?_, fun hsum => h0⟩
              rcases h3 with h3 | h3 | h3
              · exact Or.inl h3
              · exact Or.inr (Or.inl (by omega))
              · exact Or.inr (Or.inr h3)
            · have hbe : (d0 == d) = false := by simp [hd]
              simp only [hbe, Bool.false_eq_true, if_false] at hany
              refine ⟨by omega, h2, ?_, fun hsum => h4 (by omega)⟩
              rcases h3 with h3 | h3 | h3
              · exact Or.inl h3
              · exact Or.inr (Or.inl (by omega))
              · exact Or.inr (Or.inr h3)
    | toProbe d0 =>
        simp only [stepPhase]
        generalize htg : testOIDCWithTimeout d0 (env.net s.shared.probeCount d0) = t
        obtain ⟨u, ho, tos⟩ := t
        cases tos with
        | true =>
            have hbad := cntW_set (badTO d) s.workers w (WPhase.toProbe d0)
              (WPhase.toEmit ⟨d0, ho, u, true⟩) hw
            have hpend := cntW_set (evPend d) s.workers w (WPhase.toProbe d0)
              (WPhase.toEmit ⟨d0, ho, u, true⟩) hw
            have hany := cntW_set (evAny d) s.workers w (WPhase.toProbe d0)
              (WPhase.toEmit ⟨d0, ho, u, true⟩) hw
            simp only [badTO, evPend, evAny, Bool.not_true, Bool.and_false] at hbad hpend hany
            simp only [eq_self_iff_true, if_true, Bool.false_eq_true, if_false, C1Inv]
            refine ⟨by omega, h2, ?_, fun hsum => h4 (by omega)⟩
            rcases h3 with h3 | h3 | h3
            · exact Or.inl h3
            · exact Or.inr (Or.inl (by omega))
            · exact Or.inr (Or.inr h3)
        | false =>
            have hbad := cntW_set (badTO d) s.workers w (WPhase.toProbe d0)
              (WPhase.toSink ⟨d0, ho, u, false⟩) hw
            have hpend := cntW_set (evPend d) s.workers w (WPhase.toProbe d0)
              (WPhase.toSink ⟨d0, ho, u, false⟩) hw
            have hany := cntW_set (evAny d) s.workers w (WPhase.toProbe d0)
              (WPhase.toSink ⟨d0, ho, u, false⟩) hw
            simp only [badTO, evPend, evAny, Bool.and_false] at hbad hpend hany
            simp only [eq_self_iff_true, if_true, Bool.false_eq_true, if_false, C1Inv]
            refine ⟨by omega, h2, ?_, fun hsum => h4 (by omega)⟩
            rcases h3 with h3 | h3 | h3
            · exact Or.inl h3
            · exact Or.inr (Or.inl (by omega))
            · exact Or.inr (Or.inr h3)
    | toSink r =>
        obtain ⟨rd, rh, ru, rt⟩ := r
        simp only [stepPhase]
        by_cases hrd : (rd == d) = true
        · -- the sunk result is for the tracked domain: by invariant (1)
          -- it is not timed out, and after the upsert its pending
          -- emission is the evidence required by invariant (3)
          have hrt : rt = false := by
            by_contra hrt
            rw [Bool.not_eq_false] at hrt
            subst hrt
            have := cntW_pos (badTO d) s.workers w (WPhase.toSink ⟨rd, rh, ru, true⟩) hw
              (by simp [badTO, hrd])
            omega
          subst hrt
          have hde : rd = d := by simpa using hrd
          by_cases hb : (rh && outCfg) = true
          · have hbad := cntW_set (badTO d) s.workers w (WPhase.toSink ⟨rd, rh, ru, false⟩)
              (WPhase.toAppend ⟨rd, rh, ru, false⟩) hw
            have hpend := cntW_set (evPend d) s.workers w (WPhase.toSink ⟨rd, rh, ru, false⟩)
              (WPhase.toAppend ⟨rd, rh, ru, false⟩) hw
            have hany := cntW_set (evAny d) s.workers w (WPhase.toSink ⟨rd, rh, ru, false⟩)
              (WPhase.toAppend ⟨rd, rh, ru, false⟩) hw
            simp only [badTO, evPend, evAny, hrd, Bool.and_false, Bool.not_false,
              Bool.and_true, Bool.false_eq_true, if_false, if_true,
              eq_self_iff_true] at hbad hpend hany
            simp only [hb, eq_self_iff_true, if_true, C1Inv]
            refine ⟨by omega, ?_, Or.inr (Or.inl (by omega)), fun hsum => h4 (by omega)⟩
            intro hnone
            by_cases hfau : env.upsertFault s.shared.upsertCount = true
            · rw [if_pos hfau] at hnone
              exact h2 hnone
            · rw [if_neg hfau, hde, Store.lookup_upsert_self] at hnone
              exact absurd hnone (by simp)
          · simp only [Bool.not_eq_true] at hb
            have hbad := cntW_set (badTO d) s.workers w (WPhase.toSink ⟨rd, rh, ru, false⟩)
              (WPhase.toEmit ⟨rd, rh, ru, false⟩) hw
            have hpend := cntW_set (evPend d) s.workers w (WPhase.toSink ⟨rd, rh, ru, false⟩)
              (WPhase.toEmit ⟨rd, rh, ru, false⟩) hw
            have hany := cntW_set (evAny d) s.workers w (WPhase.toSink ⟨rd, rh, ru, false⟩)
              (WPhase.toEmit ⟨rd, rh, ru, false⟩) hw
            simp only [badTO, evPend, evAny, hrd, Bool.and_false, Bool.not_false,
              Bool.and_true, Bool.false_eq_true, if_false, if_true,
              eq_self_iff_true] at hbad hpend hany
            simp only [hb, Bool.false_eq_true, if_false, C1Inv]
            refine ⟨by omega, ?_, Or.inr (Or.inl (by omega)), fun hsum => h4 (by omega)⟩
            intro hnone
            by_cases hfau : env.upsertFault s.shared.upsertCount = true
            · rw [if_pos hfau] at hnone
              exact h2 hnone
            · rw [if_neg hfau, hde, Store.lookup_upsert_self] at hnone
              exact absurd hnone (by simp)
        · -- the sunk result concerns another domain: nothing tracked by
          -- the invariant changes
          have hrd' : ¬ (rd = d) := by simpa using hrd
          have hbeq : (rd == d) = false := by simpa using hrd'
          have hstore : ∀ b, Store.lookup
              (if env.upsertFault s.shared.upsertCount = true then s.shared.store
               else Store.upsert s.shared.store rd b) d = Store.lookup s.shared.store d := by
            intro b
            by_cases hfau : env.upsertFault s.shared.upsertCount = true
            · rw [if_pos hfau]
            · rw [if_neg hfau]
              exact Store.lookup_upsert_other s.shared.store rd d b
                (fun hh => hrd' hh.symm)
          by_cases hb : (rh && outCfg) = true
          · have hbad := cntW_set (badTO d) s.workers w (WPhase.toSink ⟨rd, rh, ru, rt⟩)
              (WPhase.toAppend ⟨rd, rh, ru, rt⟩) hw
            have hpend := cntW_set (evPend d) s.workers w (WPhase.toSink ⟨rd, rh, ru, rt⟩)
              (WPhase.toAppend ⟨rd, rh, ru, rt⟩) hw
            have hany := cntW_set (evAny d) s.workers w (WPhase.toSink ⟨rd, rh, ru, rt⟩)
              (WPhase.toAppend ⟨rd, rh, ru, rt⟩) hw
            simp only [badTO, evPend, evAny, hbeq, Bool.false_and, Bool.false_eq_true,
              if_false] at hbad hpend hany
            simp only [hb, eq_self_iff_true, if_true, C1Inv]
            refine ⟨by omega, ?_, ?_, fun hsum => h4 (by omega)⟩
            · intro hnone
              rw [hstore rh] at hnone
              exact h2 hnone
            · rcases h3 with h3 | h3 | h3
              · exact Or.inl (by rw [hstore rh]; exact h3)
              · exact Or.inr (Or.inl (by omega))
              · exact Or.inr (Or.inr h3)
          · simp only [Bool.not_eq_true] at hb
            have hbad := cntW_set (badTO d) s.workers w (WPhase.toSink ⟨rd, rh, ru, rt⟩)
              (WPhase.toEmit ⟨rd, rh, ru, rt⟩) hw
            have hpend := cntW_set (evPend d) s.workers w (WPhase.toSink ⟨rd, rh, ru, rt⟩)
              (WPhase.toEmit ⟨rd, rh, ru, rt⟩) hw
            have hany := cntW_set (evAny d) s.workers w (WPhase.toSink ⟨rd, rh, ru, rt⟩)
              (WPhase.toEmit ⟨rd, rh, ru, rt⟩) hw
            simp only [badTO, evPend, evAny, hbeq, Bool.false_and, Bool.false_eq_true,
              if_false] at hbad hpend hany
            simp only [hb, Bool.false_eq_true, if_false, C1Inv]
            refine ⟨by omega, ?_, ?_, fun hsum => h4 (by omega)⟩
            · intro hnone
              rw [hstore rh] at hnone
              exact h2 hnone
            · rcases h3 with h3 | h3 | h3
              · exact Or.inl (by rw [hstore rh]; exact h3)
              · exact Or.inr (Or.inl (by omega))
              · exact Or.inr (Or.inr h3)
    | toAppend r =>
        obtain ⟨rd, rh, ru, rt⟩ := r
        have hbad := cntW_set (badTO d) s.workers w (WPhase.toAppend ⟨rd, rh, ru, rt⟩)
          (WPhase.toEmit ⟨rd, rh, ru, rt⟩) hw
        have hpend := cntW_set (evPend d) s.workers w (WPhase.toAppend ⟨rd, rh, ru, rt⟩)
          (WPhase.toEmit ⟨rd, rh, ru, rt⟩) hw
        have hany := cntW_set (evAny d) s.workers w (WPhase.toAppend ⟨rd, rh, ru, rt⟩)
          (WPhase.toEmit ⟨rd, rh, ru, rt⟩) hw
        simp only [badTO, evPend, evAny, Bool.false_eq_true, if_false] at hbad hpend hany
        simp only [stepPhase, C1Inv]
        refine ⟨by omega, h2, ?_, fun hsum => h4 (by omega)⟩
        rcases h3 with h3 | h3 | h3
        · exact Or.inl h3
        · exact Or.inr (Or.inl (by omega))
        · exact Or.inr (Or.inr h3)
    | toEmit r =>
        obtain ⟨rd, rh, ru, rt⟩ := r
        have hbad := cntW_set (badTO d) s.workers w (WPhase.toEmit ⟨rd, rh, ru, rt⟩)
          WPhase.idle hw
        have hpend := cntW_set (evPend d) s.workers w (WPhase.toEmit ⟨rd, rh, ru, rt⟩)
          WPhase.idle hw
        have hany := cntW_set (evAny d) s.workers w (WPhase.toEmit ⟨rd, rh, ru, rt⟩)
          WPhase.idle hw
        have hsc := scAll_append d s.shared.stream ⟨rd, rh, ru, rt⟩
        have hscn := scNT_append d s.shared.stream ⟨rd, rh, ru, rt⟩
        simp only [stepPhase, C1Inv]
        by_cases hrd : (rd == d) = true
        · have h0 : Store.lookup st0s d = none := h4 (by
            have := cntW_pos (evAny d) s.workers w (WPhase.toEmit ⟨rd, rh, ru, rt⟩) hw
              (by simp [evAny, hrd])
            omega)
          cases rt with
          | true =>
              simp only [badTO, evPend, evAny, hrd, Bool.true_and, Bool.not_true,
                Bool.and_false, Bool.false_eq_true, if_false, if_true,
                eq_self_iff_true] at hbad hpend hany hsc hscn
              refine ⟨by omega, h2, ?_, fun hsum => h0⟩
              rcases h3 with h3 | h3 | h3
              · exact Or.inl h3
              · exact Or.inr (Or.inl (by omega))
              · exact Or.inr (Or.inr (by omega))
          | false =>
              simp only [badTO, evPend, evAny, hrd, Bool.true_and, Bool.not_false,
                Bool.and_true, Bool.false_eq_true, if_false, if_true,
                eq_self_iff_true] at hbad hpend hany hsc hscn
              refine ⟨by omega, h2, ?_, fun hsum => h0⟩
              rcases h3 with h3 | h3 | h3
              · exact Or.inl h3
              · exact Or.inr (Or.inr (by omega))
              · exact Or.inr (Or.inr (by omega))
        · have hbeq : (rd == d) = false := by simpa using hrd
          simp only [badTO, evPend, evAny, hbeq, Bool.false_and, Bool.false_eq_true,
            if_false] at hbad hpend hany hsc hscn
          refine ⟨by omega, h2, ?_, fun hsum => h4 (by omega)⟩
          rcases h3 with h3 | h3 | h3
          · exact Or.inl h3
          · exact Or.inr (Or.inl (by omega))
          · exact Or.inr (Or.inr (by omega))

theorem cntW_eq_zero_of_false (f : WPhase → Bool) (ws : List WPhase)
    (h : ∀ ph ∈ ws, f ph = false) : cntW f ws = 0 := by
  induction ws with
  | nil => rfl
  | cons q qs ih =>
      simp only [cntW, h q (by simp), if_false, Bool.false_eq_true]
      simpa using ih (fun ph hph => h ph (by simp [hph]))

theorem mem_of_getElem?W (ws : List WPhase) (w : Nat) (ph : WPhase)
    (h : ws[w]? = some ph) : ph ∈ ws := by
  induction ws generalizing w with
  | nil => simp at h
  | cons q qs ih =>
      cases w with
      | zero =>
          simp only [List.getElem?_cons_zero, Option.some_inj] at h
          simp [h]
      | succ n =>
          simp only [List.getElem?_cons_succ] at h
          exact List.mem_cons_of_mem q (ih n h)

theorem C1Inv_init (st0s : Store) (d : String) (input : List String) (P : Nat) :
    C1Inv st0s d (mkInit input P st0s) := by
  have hz : ∀ (f : WPhase → Bool), f WPhase.idle = false
      → cntW f (List.replicate P WPhase.idle) = 0 := by
    intro f hfid
    refine cntW_eq_zero_of_false f _ (fun ph hph => ?_)
    rw [(List.eq_of_mem_replicate hph : ph = WPhase.idle)]
    exact hfid
  refine ⟨hz _ rfl, fun hh => hh, Or.inl rfl, fun hsum => ?_⟩
  exfalso
  simp only [mkInit] at hsum
  rw [hz (evAny d) rfl] at hsum
  simp [scAll] at hsum

/-- Run-level consequence of `C1Inv`: in a completed run whose row
queries never fault, a domain with at least one streamed outcome, all of
whose streamed outcomes timed out, has no row in the final store. -/
theorem C1_run (env : Env) (outCfg : Bool) (input : List String) (P : Nat)
    (st0s : Store) (sched : List Nat) (d : String)
    (hf : ∀ n, env.lookupFault n = false)
    (hdone : allDone (crun env outCfg sched (mkInit input P st0s)))
    (hsome : 1 ≤ scAll d (crun env outCfg sched (mkInit input P st0s)).shared.stream)
    (hallTO : scNT d (crun env outCfg sched (mkInit input P st0s)).shared.stream = 0) :
    Store.lookup (crun env outCfg sched (mkInit input P st0s)).shared.store d = none := by
  have hinv := crun_inv (C1Inv st0s d) env outCfg
    (fun s w h => C1Inv_cstep env outCfg st0s d s w hf h) sched _
    (C1Inv_init st0s d input P)
  obtain ⟨h1, h2, h3, h4⟩ := hinv
  have hp0 : cntW (evPend d) (crun env outCfg sched (mkInit input P st0s)).workers = 0 :=
    cntW_eq_zero_of_false _ _ (fun ph hph => by rw [hdone.2 ph hph]; rfl)
  have ha0 : cntW (evAny d) (crun env outCfg sched (mkInit input P st0s)).workers = 0 :=
    cntW_eq_zero_of_false _ _ (fun ph hph => by rw [hdone.2 ph hph]; rfl)
  have h0 : Store.lookup st0s d = none := h4 (by omega)
  rcases h3 with h3 | h3 | h3
  · rw [h3, h0]
  · omega
  · omega

theorem C5Inv_cstep (env : Env) (outCfg : Bool) (st0s : Store)
    (s : CState) (w : Nat) (hf : ∀ n, env.lookupFault n = false)
    (h : C5Inv st0s s) : C5Inv st0s (cstep env outCfg s w) := by
  obtain ⟨hst, hpr, hsm, hol, hwk, hqu⟩ := h
  cases hw : s.workers[w]? with
  | none =>
      simp only [cstep, hw]
      exact ⟨hst, hpr, hsm, hol, hwk, hqu⟩
  | some ph =>
    rw [cstep_of_phase env outCfg s w ph hw]
    have hmem : ph ∈ s.workers := mem_of_getElem?W s.workers w ph hw
    rcases hwk ph hmem with hid | hfin | ⟨x, hgi, hx⟩
    · subst hid
      cases hq : s.queue with
      | nil =>
          simp only [stepPhase, hq]
          refine ⟨hst, hpr, hsm, hol, fun ph' hph' => ?_, by simp⟩
          rcases mem_of_mem_set s.workers w WPhase.finished ph' hph' with hm | hm
          · exact hwk ph' hm
          · exact Or.inr (Or.inl hm)
      | cons d0 rest =>
          simp only [stepPhase, hq]
          refine ⟨hst, hpr, hsm, hol, fun ph' hph' => ?_,
            fun x hxm => hqu x (by rw [hq]; exact List.mem_cons_of_mem d0 hxm)⟩
          rcases mem_of_mem_set s.workers w (WPhase.gotItem d0) ph' hph' with hm | hm
          · exact hwk ph' hm
          · exact Or.inr (Or.inr ⟨d0, hm, hqu d0 (by rw [hq]; exact List.mem_cons_self d0 rest)⟩)
    · subst hfin
      exact ⟨hst, hpr, hsm, hol, hwk, hqu⟩
    · subst hgi
      obtain ⟨b, hb⟩ := Option.isSome_iff_exists.mp hx
      have hlk : dbLookup env s.shared.lookupCount s.shared.store x = some b := by
        simp [dbLookup, hf s.shared.lookupCount, hst, hb]
      simp only [stepPhase, hlk]
      refine ⟨hst, hpr, hsm, hol, fun ph' hph' => ?_, hqu⟩
      rcases mem_of_mem_set s.workers w WPhase.idle ph' hph' with hm | hm
      · exact hwk ph' hm
      · exact Or.inl hm

/-- Run-level consequence of `C5Inv`: when every input domain already
has a record and row queries never fault, any run under any schedule
probes nothing, streams nothing, appends nothing, and leaves the store
untouched. -/
theorem C5_run (env : Env) (outCfg : Bool) (input : List String) (P : Nat)
    (st0s : Store) (sched : List Nat)
    (hf : ∀ n, env.lookupFault n = false)
    (hknown : ∀ x ∈ input, (Store.lookup st0s x).isSome = true) :
    (crun env outCfg sched (mkInit input P st0s)).shared.probed = []
  ∧ (crun env outCfg sched (mkInit input P st0s)).shared.store = st0s
  ∧ (crun env outCfg sched (mkInit input P st0s)).shared.stream = []
  ∧ (crun env outCfg sched (mkInit input P st0s)).shared.outLines = [] := by
  have hinit : C5Inv st0s (mkInit input P st0s) := by
    refine ⟨rfl, rfl, rfl, rfl, fun ph hph => ?_, fun x hx => hknown x hx⟩
    exact Or.inl (List.eq_of_mem_replicate hph)
  have hinv := crun_inv (C5Inv st0s) env outCfg
    (fun s w h => C5Inv_cstep env outCfg st0s s w hf h) sched _ hinit
  exact ⟨hinv.2.1, hinv.1, hinv.2.2.1, hinv.2.2.2.1⟩

theorem itemsInv_cstep (env : Env) (outCfg : Bool) (N : Nat) (s : CState) (w : Nat)
    (h : itemsInv N s) : itemsInv N (cstep env outCfg s w) := by
  unfold itemsInv at h ⊢
  cases hw : s.workers[w]? with
  | none => simpa [cstep, hw] using h
  | some ph =>
    rw [cstep_of_phase env outCfg s w ph hw]
    cases ph with
    | finished => exact h
    | idle =>
        cases hq : s.queue with
        | nil =>
            have hc := cntW_set (fun ph => (phaseDomain ph).isSome) s.workers w
              WPhase.idle WPhase.finished hw
            simp only [show (phaseDomain WPhase.idle).isSome = false from rfl,
              show (phaseDomain WPhase.finished).isSome = false from rfl,
              Bool.false_eq_true, if_false] at hc
            simp only [stepPhase, hq]
            rw [hq] at h
            simp only [List.length_nil] at h ⊢
            omega
        | cons d0 rest =>
            have hc := cntW_set (fun ph => (phaseDomain ph).isSome) s.workers w
              WPhase.idle (WPhase.gotItem d0) hw
            simp only [show (phaseDomain WPhase.idle).isSome = false from rfl,
              show (phaseDomain (WPhase.gotItem d0)).isSome = true from rfl,
              Bool.false_eq_true, if_false, eq_self_iff_true, if_true] at hc
            simp only [stepPhase, hq]
            rw [hq] at h
            simp only [List.length_cons] at h ⊢
            omega
    | gotItem d0 =>
        cases hlk : dbLookup env s.shared.lookupCount s.shared.store d0 with
        | some b =>
            have hc := cntW_set (fun ph => (phaseDomain ph).isSome) s.workers w
              (WPhase.gotItem d0) WPhase.idle hw
            simp only [show (phaseDomain (WPhase.gotItem d0)).isSome = true from rfl,
              show (phaseDomain WPhase.idle).isSome = false from rfl,
              Bool.false_eq_true, if_false, eq_self_iff_true, if_true] at hc
            simp only [stepPhase, hlk, List.length_append, List.length_cons,
              List.length_nil]
            omega
        | none =>
            have hc := cntW_set (fun ph => (phaseDomain ph).isSome) s.workers w
              (WPhase.gotItem d0) (WPhase.toProbe d0) hw
            simp only [show (phaseDomain (WPhase.gotItem d0)).isSome = true from rfl,
              show (phaseDomain (WPhase.toProbe d0)).isSome = true from rfl,
              eq_self_iff_true, if_true] at hc
            simp only [stepPhase, hlk]
            omega
    | toProbe d0 =>
        simp only [stepPhase]
        generalize htg : testOIDCWithTimeout d0 (env.net s.shared.probeCount d0) = t
        obtain ⟨u, ho, tos⟩ := t
        cases tos with
        | true =>
            have hc := cntW_set (fun ph => (phaseDomain ph).isSome) s.workers w
              (WPhase.toProbe d0) (WPhase.toEmit ⟨d0, ho, u, true⟩) hw
            simp only [show (phaseDomain (WPhase.toProbe d0)).isSome = true from rfl,
              show (phaseDomain (WPhase.toEmit ⟨d0, ho, u, true⟩)).isSome = true from rfl,
              eq_self_iff_true, if_true] at hc
            simp only [eq_self_iff_true, if_true]
            omega
        | false =>
            have hc := cntW_set (fun ph => (phaseDomain ph).isSome) s.workers w
              (WPhase.toProbe d0) (WPhase.toSink ⟨d0, ho, u, false⟩) hw
            simp only [show (phaseDomain (WPhase.toProbe d0)).isSome = true from rfl,
              show (phaseDomain (WPhase.toSink ⟨d0, ho, u, false⟩)).isSome = true from rfl,
              eq_self_iff_true, if_true] at hc
            simp only [Bool.false_eq_true, if_false]
            omega
    | toSink r =>
        simp only [stepPhase]
        by_cases hb : (r.hasOIDC && outCfg) = true
        · have hc := cntW_set (fun ph => (phaseDomain ph).isSome) s.workers w
            (WPhase.toSink r) (WPhase.toAppend r) hw
          simp only [show (phaseDomain (WPhase.toSink r)).isSome = true from rfl,
            show (phaseDomain (WPhase.toAppend r)).isSome = true from rfl,
            eq_self_iff_true, if_true] at hc
          simp only [hb, eq_self_iff_true, if_true]
          omega
        · simp only [Bool.not_eq_true] at hb
          have hc := cntW_set (fun ph => (phaseDomain ph).isSome) s.workers w
            (WPhase.toSink r) (WPhase.toEmit r) hw
          simp only [show (phaseDomain (WPhase.toSink r)).isSome = true from rfl,
            show (phaseDomain (WPhase.toEmit r)).isSome = true from rfl,
            eq_self_iff_true, if_true] at hc
          simp only [hb, Bool.false_eq_true, if_false]
          omega
    | toAppend r =>
        have hc := cntW_set (fun ph => (phaseDomain ph).isSome) s.workers w
          (WPhase.toAppend r) (WPhase.toEmit r) hw
        simp only [show (phaseDomain (WPhase.toAppend r)).isSome = true from rfl,
          show (phaseDomain (WPhase.toEmit r)).isSome = true from rfl,
          eq_self_iff_true, if_true] at hc
        simp only [stepPhase]
        omega
    | toEmit r =>
        have hc := cntW_set (fun ph => (phaseDomain ph).isSome) s.workers w
          (WPhase.toEmit r) WPhase.idle hw
        simp only [show (phaseDomain (WPhase.toEmit r)).isSome = true from rfl,
          show (phaseDomain WPhase.idle).isSome = false from rfl,
          Bool.false_eq_true, if_false, eq_self_iff_true, if_true] at hc
        simp only [stepPhase, List.length_append, List.length_cons, List.length_nil]
        omega

/-- Run-level consequence of `itemsInv`: a completed run retires every
input item either as a synchronous already-known line or as a streamed
outcome. -/
theorem items_run (env : Env) (outCfg : Bool) (input : List String) (P : Nat)
    (st0s : Store) (sched : List Nat)
    (hdone : allDone (crun env outCfg sched (mkInit input P st0s))) :
    (crun env outCfg sched (mkInit input P st0s)).shared.knownLines.length
      + (crun env outCfg sched (mkInit input P st0s)).shared.stream.length
      = input.length := by
  have hinit : itemsInv input.length (mkInit input P st0s) := by
    unfold itemsInv
    have hz : cntW (fun ph => (phaseDomain ph).isSome) (List.replicate P WPhase.idle) = 0 := by
      refine cntW_eq_zero_of_false _ _ (fun ph hph => ?_)
      rw [(List.eq_of_mem_replicate hph : ph = WPhase.idle)]
      rfl
    simp [mkInit, hz]
  have hinv := crun_inv (itemsInv input.length) env outCfg
    (fun s w h => itemsInv_cstep env outCfg input.length s w h) sched _ hinit
  unfold itemsInv at hinv
  have hq := hdone.1
  have hz : cntW (fun ph => (phaseDomain ph).isSome)
      (crun env outCfg sched (mkInit input P st0s)).workers = 0 :=
    cntW_eq_zero_of_false _ _ (fun ph hph => by rw [hdone.2 ph hph]; rfl)
  rw [hq, hz] at hinv
  simpa using hinv

theorem getElem?_append_len (pre : List WPhase) (x : WPhase) (suf : List WPhase) :
    (pre ++ x :: suf)[pre.length]? = some x := by
  induction pre with
  | nil => simp
  | cons p ps ih =>
      rw [List.cons_append, List.length_cons, List.getElem?_cons_succ]
      exact ih

theorem set_append_len (pre : List WPhase) (x y : WPhase) (suf : List WPhase) :
    (pre ++ x :: suf).set pre.length y = pre ++ y :: suf := by
  induction pre with
  | nil => rfl
  | cons p ps ih =>
      simp only [List.cons_append, List.length_cons, List.set_cons_succ, ih]

/-- A single worker can drain the whole queue by itself: scheduling only
worker 0 from an idle phase empties the queue and finishes worker 0,
whatever the environment does. -/
theorem drain0 (env : Env) (outCfg : Bool) :
    ∀ (q : List String) (rest : List WPhase) (sh : RunState),
    ∃ (sched : List Nat) (sh2 : RunState),
      crun env outCfg sched ⟨q, WPhase.idle :: rest, sh⟩
        = ⟨[], WPhase.finished :: rest, sh2⟩ := by
  intro q
  induction q with
  | nil =>
      intro rest sh
      refine ⟨[0], sh, ?_⟩
      simp [crun, cstep, stepPhase]
  | cons d0 q' ih =>
      intro rest sh
      cases hlk : dbLookup env sh.lookupCount sh.store d0 with
      | some b =>
          obtain ⟨sched, sh2, hrun⟩ := ih rest
            { sh with knownLines := sh.knownLines ++ [knownLine d0 b],
                      lookupCount := sh.lookupCount + 1 }
          refine ⟨[0, 0] ++ sched, sh2, ?_⟩
          rw [crun_append]
          have h01 : crun env outCfg [0, 0] ⟨d0 :: q', WPhase.idle :: rest, sh⟩
              = ⟨q', WPhase.idle :: rest,
                 { sh with knownLines := sh.knownLines ++ [knownLine d0 b],
                           lookupCount := sh.lookupCount + 1 }⟩ := by
            simp [crun, cstep, stepPhase, hlk]
          rw [h01]
          exact hrun
      | none =>
          by_cases ht : (testOIDCWithTimeout d0 (env.net sh.probeCount d0)).timedOut = true
          · obtain ⟨sched, sh2, hrun⟩ := ih rest
              { sh with
                  stream := sh.stream ++ [⟨d0,
                    (testOIDCWithTimeout d0 (env.net sh.probeCount d0)).hasOIDC,
                    (testOIDCWithTimeout d0 (env.net sh.probeCount d0)).oidcURL,
                    (testOIDCWithTimeout d0 (env.net sh.probeCount d0)).timedOut⟩],
                  probed := sh.probed ++ [d0],
                  lookupCount := sh.lookupCount + 1,
                  probeCount := sh.probeCount + 1 }
            refine ⟨[0, 0, 0, 0] ++ sched, sh2, ?_⟩
            rw [crun_append]
            have h01 : crun env outCfg [0, 0, 0, 0] ⟨d0 :: q', WPhase.idle :: rest, sh⟩
                = ⟨q', WPhase.idle :: rest,
                   { sh with
                       stream := sh.stream ++ [⟨d0,
                         (testOIDCWithTimeout d0 (env.net sh.probeCount d0)).hasOIDC,
                         (testOIDCWithTimeout d0 (env.net sh.probeCount d0)).oidcURL,
                         (testOIDCWithTimeout d0 (env.net sh.probeCount d0)).timedOut⟩],
                       probed := sh.probed ++ [d0],
                       lookupCount := sh.lookupCount + 1,
                       probeCount := sh.probeCount + 1 }⟩ := by
              simp [crun, cstep, stepPhase, hlk, ht]
            rw [h01]
            exact hrun
          · simp only [Bool.not_eq_true] at ht
            by_cases hb : ((testOIDCWithTimeout d0 (env.net sh.probeCount d0)).hasOIDC
                && outCfg) = true
            · obtain ⟨sched, sh2, hrun⟩ := ih rest
                { sh with
                    store := (if env.upsertFault sh.upsertCount = true then sh.store
                              else Store.upsert sh.store d0
                                (testOIDCWithTimeout d0 (env.net sh.probeCount d0)).hasOIDC),
                    outLines := sh.outLines
                      ++ [(testOIDCWithTimeout d0 (env.net sh.probeCount d0)).oidcURL],
                    stream := sh.stream ++ [⟨d0,
                      (testOIDCWithTimeout d0 (env.net sh.probeCount d0)).hasOIDC,
                      (testOIDCWithTimeout d0 (env.net sh.probeCount d0)).oidcURL,
                      (testOIDCWithTimeout d0 (env.net sh.probeCount d0)).timedOut⟩],
                    probed := sh.probed ++ [d0],
                    lookupCount := sh.lookupCount + 1,
                    probeCount := sh.probeCount + 1,
                    upsertCount := sh.upsertCount + 1 }
              refine ⟨[0, 0, 0, 0, 0, 0] ++ sched, sh2, ?_⟩
              rw [crun_append]
              have h01 : crun env outCfg [0, 0, 0, 0, 0, 0] ⟨d0 :: q', WPhase.idle :: rest, sh⟩
                  = ⟨q', WPhase.idle :: rest,
                     { sh with
                         store := (if env.upsertFault sh.upsertCount = true then sh.store
                                   else Store.upsert sh.store d0
                                     (testOIDCWithTimeout d0 (env.net sh.probeCount d0)).hasOIDC),
                         outLines := sh.outLines
                           ++ [(testOIDCWithTimeout d0 (env.net sh.probeCount d0)).oidcURL],
                         stream := sh.stream ++ [⟨d0,
                           (testOIDCWithTimeout d0 (env.net sh.probeCount d0)).hasOIDC,
                           (testOIDCWithTimeout d0 (env.net sh.probeCount d0)).oidcURL,
                           (testOIDCWithTimeout d0 (env.net sh.probeCount d0)).timedOut⟩],
                         probed := sh.probed ++ [d0],
                         lookupCount := sh.lookupCount + 1,
                         probeCount := sh.probeCount + 1,
                         upsertCount := sh.upsertCount + 1 }⟩ := by
                simp [crun, cstep, stepPhase, hlk, ht, hb]
              rw [h01]
              exact hrun
            · simp only [Bool.not_eq_true] at hb
              obtain ⟨sched, sh2, hrun⟩ := ih rest
                { sh with
                    store := (if env.upsertFault sh.upsertCount = true then sh.store
                              else Store.upsert sh.store d0
                                (testOIDCWithTimeout d0 (env.net sh.probeCount d0)).hasOIDC),
                    stream := sh.stream ++ [⟨d0,
                      (testOIDCWithTimeout d0 (env.net sh.probeCount d0)).hasOIDC,
                      (testOIDCWithTimeout d0 (env.net sh.probeCount d0)).oidcURL,
                      (testOIDCWithTimeout d0 (env.net sh.probeCount d0)).timedOut⟩],
                    probed := sh.probed ++ [d0],
                    lookupCount := sh.lookupCount + 1,
                    probeCount := sh.probeCount + 1,
                    upsertCount := sh.upsertCount + 1 }
              refine ⟨[0, 0, 0, 0, 0] ++ sched, sh2, ?_⟩
              rw [crun_append]
              have h01 : crun env outCfg [0, 0, 0, 0, 0] ⟨d0 :: q', WPhase.idle :: rest, sh⟩
                  = ⟨q', WPhase.idle :: rest,
                     { sh with
                         store := (if env.upsertFault sh.upsertCount = true then sh.store
                                   else Store.upsert sh.store d0
                                     (testOIDCWithTimeout d0 (env.net sh.probeCount d0)).hasOIDC),
                         stream := sh.stream ++ [⟨d0,
                           (testOIDCWithTimeout d0 (env.net sh.probeCount d0)).hasOIDC,
                           (testOIDCWithTimeout d0 (env.net sh.probeCount d0)).oidcURL,
                           (testOIDCWithTimeout d0 (env.net sh.probeCount d0)).timedOut⟩],
                         probed := sh.probed ++ [d0],
                         lookupCount := sh.lookupCount + 1,
                         probeCount := sh.probeCount + 1,
                         upsertCount := sh.upsertCount + 1 }⟩ := by
                simp [crun, cstep, stepPhase, hlk, ht, hb]
              rw [h01]
              exact hrun

/-- With the queue empty, stepping each remaining worker once finishes
it: scheduling indices `pre.length, pre.length+1, ...` finishes every
worker of `suf` when each is idle or already finished. -/
theorem finishRest (env : Env) (outCfg : Bool) :
    ∀ (suf pre : List WPhase) (sh : RunState),
    (∀ ph ∈ suf, ph = WPhase.idle ∨ ph = WPhase.finished) →
    crun env outCfg (List.range' pre.length suf.length) ⟨[], pre ++ suf, sh⟩
      = ⟨[], pre ++ List.replicate suf.length WPhase.finished, sh⟩ := by
  intro suf
  induction suf with
  | nil =>
      intro pre sh h
      simp [crun, List.range']
  | cons x suf' ih =>
      intro pre sh h
      rw [show List.range' pre.length (x :: suf').length
            = pre.length :: List.range' (pre.length + 1) suf'.length from by
          simp [List.range']]
      rw [crun_cons]
      have hx := h x (by simp)
      have hstep : cstep env outCfg ⟨[], pre ++ x :: suf', sh⟩ pre.length
          = ⟨[], (pre ++ [WPhase.finished]) ++ suf', sh⟩ := by
        rcases hx with hx | hx <;> subst hx
        · rw [cstep_of_phase env outCfg _ _ _ (getElem?_append_len pre _ suf')]
          simp [stepPhase, set_append_len]
        · rw [cstep_of_phase env outCfg _ _ _ (getElem?_append_len pre _ suf')]
          simp [stepPhase]
      rw [hstep]
      have hlen : (pre ++ [WPhase.finished]).length = pre.length + 1 := by simp
      have := ih (pre ++ [WPhase.finished]) sh (fun ph hph => h ph (by simp [hph]))
      rw [hlen] at this
      rw [this]
      simp [List.replicate_succ, List.append_assoc]

/-- For every environment, input and positive worker count, some
schedule completes the whole run. -/
theorem existsCompleting (env : Env) (outCfg : Bool) (input : List String)
    (P : Nat) (st0s : Store) (hP : 1 ≤ P) :
    ∃ sched, allDone (crun env outCfg sched (mkInit input P st0s)) := by
  obtain ⟨P', rfl⟩ : ∃ P', P = P' + 1 := ⟨P - 1, by omega⟩
  have hw0 : mkInit input (P' + 1) st0s
      = ⟨input, WPhase.idle :: List.replicate P' WPhase.idle, ⟨st0s, [], [], [], [], 0, 0, 0⟩⟩ := by
    simp [mkInit, List.replicate_succ]
  obtain ⟨sched1, sh2, h1⟩ := drain0 env outCfg input (List.replicate P' WPhase.idle)
    ⟨st0s, [], [], [], [], 0, 0, 0⟩
  have h2 := finishRest env outCfg (List.replicate P' WPhase.idle) [WPhase.finished] sh2
    (fun ph hph => Or.inl (List.eq_of_mem_replicate hph))
  refine ⟨sched1 ++ List.range' 1 P', ?_⟩
  rw [crun_append, hw0, h1]
  have hone : ([WPhase.finished] : List WPhase).length = 1 := rfl
  rw [show (WPhase.finished :: List.replicate P' WPhase.idle : List WPhase)
        = [WPhase.finished] ++ List.replicate P' WPhase.idle from rfl]
  rw [show (List.range' 1 P' : List Nat)
        = List.range' ([WPhase.finished] : List WPhase).length
            (List.replicate P' WPhase.idle).length from by simp]
  rw [h2]
  constructor
  · rfl
  · intro ph hph
    rcases List.mem_append.mp hph with hm | hm
    · simpa using hm
    · exact List.eq_of_mem_replicate hm

/-- C1 counterexample: in a two-worker run over the duplicate input
`["d", "d"]` with an initially empty store, one worker upserts a
completed 404 outcome while the other worker's probe times out and is
emitted last.  After the run the most recent streamed outcome for `"d"`
is TimedOut, yet a store row for `"d"` exists (so the domain is not
eligible for re-probing), refuting the claim as stated. -/
theorem claimC1_counterexample :
    lastFor (crun envC1x false schedC1x (mkInit ["d", "d"] 2 [])).shared.stream "d"
      = some ⟨"d", false, "", true⟩
  ∧ Store.lookup (crun envC1x false schedC1x (mkInit ["d", "d"] 2 [])).shared.store "d"
      = some false
  ∧ allDone (crun envC1x false schedC1x (mkInit ["d", "d"] 2 [])) := by
  refine ⟨by decide, by decide, by decide⟩

/-- C1 (amended): when the probe of a domain times out, the worker
performs neither the store upsert nor the output-artifact append (the
sink and append phases are bypassed, and the emit step touches neither
the store nor the output file); consequently, after any completed run
whose store row queries do not fail, a domain with at least one streamed
outcome, all of whose streamed outcomes in that run timed out, has no
store row and remains eligible for re-probing on a future run.  (The
original claim, keyed on the most recent outcome only, fails on a
duplicate-domain race in which another occurrence's non-timeout upsert
lands before the timed-out outcome is emitted.) -/
theorem claimC1 (env : Env) (outCfg : Bool) :
    (∀ (s : CState) (w : Nat) (d : String),
       s.workers[w]? = some (WPhase.toProbe d) →
       (testOIDCWithTimeout d (env.net s.shared.probeCount d)).timedOut = true →
       (cstep env outCfg s w).shared.store = s.shared.store
       ∧ (cstep env outCfg s w).shared.outLines = s.shared.outLines
       ∧ (cstep env outCfg s w).workers = s.workers.set w (WPhase.toEmit
            ⟨d, (testOIDCWithTimeout d (env.net s.shared.probeCount d)).hasOIDC,
               (testOIDCWithTimeout d (env.net s.shared.probeCount d)).oidcURL, true⟩))
  ∧ (∀ (s : CState) (w : Nat) (r : DomainResult),
       s.workers[w]? = some (WPhase.toEmit r) →
       (cstep env outCfg s w).shared.store = s.shared.store
       ∧ (cstep env outCfg s w).shared.outLines = s.shared.outLines
       ∧ (cstep env outCfg s w).shared.stream = s.shared.stream ++ [r])
  ∧ (∀ (input : List String) (P : Nat) (st0s : Store) (sched : List Nat) (d : String),
       (∀ n, env.lookupFault n = false) →
       allDone (crun env outCfg sched (mkInit input P st0s)) →
       1 ≤ scAll d (crun env outCfg sched (mkInit input P st0s)).shared.stream →
       scNT d (crun env outCfg sched (mkInit input P st0s)).shared.stream = 0 →
       Store.lookup (crun env outCfg sched (mkInit input P st0s)).shared.store d = none) := by
  refine ⟨?_, ?_, ?_⟩
  · intro s w d hw ht
    rw [cstep_of_phase env outCfg s w _ hw]
    refine ⟨?_, ?_, ?_⟩ <;> simp [stepPhase, ht]
  · intro s w r hw
    rw [cstep_of_phase env outCfg s w _ hw]
    refine ⟨?_, ?_, ?_⟩ <;> simp [stepPhase]
  · intro input P st0s sched d hf hdone hsome hallTO
    exact C1_run env outCfg input P st0s sched d hf hdone hsome hallTO

theorem claimC1_witness :
    ((cstep envTO false stItemProbe 0).shared.store = stItemProbe.shared.store
      ∧ (cstep envTO false stItemProbe 0).shared.outLines = stItemProbe.shared.outLines)
  ∧ Store.lookup (crun envTO false (List.replicate 7 0) (mkInit ["a"] 1 [])).shared.store "a"
      = none := by
  have h := claimC1 envTO false
  refine ⟨?_, ?_⟩
  · have h1 := h.1 stItemProbe 0 "a" (by decide) (by decide)
    exact ⟨h1.1, h1.2.1⟩
  · exact h.2.2 ["a"] 1 [] (List.replicate 7 0) "a" (fun n => rfl)
      (by decide) (by decide) (by decide)

/-- C3: a worker that dequeues an already-recorded domain (the row query
returns a value) reports it synchronously as already known and moves on:
the step performs no probe, writes nothing to the store or output file,
pushes nothing onto the result stream, and only appends the known line
before the worker returns to its dequeue phase. -/
theorem claimC3 (env : Env) (outCfg : Bool) (s : CState) (w : Nat) (d : String) (b : Bool)
    (hw : s.workers[w]? = some (WPhase.gotItem d))
    (hk : dbLookup env s.shared.lookupCount s.shared.store d = some b) :
    (cstep env outCfg s w).shared.store = s.shared.store
  ∧ (cstep env outCfg s w).shared.stream = s.shared.stream
  ∧ (cstep env outCfg s w).shared.outLines = s.shared.outLines
  ∧ (cstep env outCfg s w).shared.probed = s.shared.probed
  ∧ (cstep env outCfg s w).shared.knownLines = s.shared.knownLines ++ [knownLine d b]
  ∧ (cstep env outCfg s w).workers = s.workers.set w WPhase.idle
  ∧ (cstep env outCfg s w).queue = s.queue := by
  rw [cstep_of_phase env outCfg s w _ hw]
  refine ⟨?_, ?_, ?_, ?_, ?_, ?_, ?_⟩ <;> simp [stepPhase, hk]

theorem claimC3_witness :
    (cstep envErr false stItemKnown 0).shared.store = stItemKnown.shared.store
  ∧ (cstep envErr false stItemKnown 0).shared.stream = stItemKnown.shared.stream
  ∧ (cstep envErr false stItemKnown 0).shared.outLines = stItemKnown.shared.outLines
  ∧ (cstep envErr false stItemKnown 0).shared.probed = stItemKnown.shared.probed
  ∧ (cstep envErr false stItemKnown 0).shared.knownLines
      = stItemKnown.shared.knownLines ++ [knownLine "a" true]
  ∧ (cstep envErr false stItemKnown 0).workers = stItemKnown.workers.set 0 WPhase.idle
  ∧ (cstep envErr false stItemKnown 0).queue = stItemKnown.queue :=
  claimC3 envErr false stItemKnown 0 "a" true (by decide) (by decide)

/-- C4: duplicate occurrences of a domain are both enqueued (no dedup at
enqueue time): with input `["d", "d"]` and an empty store the initial
queue holds `"d"` twice; under a schedule in which both workers pass the
lookup before either upserts, both occurrences are probed and both
upserts execute, and the final store holds exactly one row for `"d"`
whose value is the one written by whichever upsert completed last; in
general, every run started from an empty store keeps at most one row per
domain name. -/
theorem claimC4 :
    (mkInit ["d", "d"] 2 []).queue.count "d" = 2
  ∧ (crun envC4 false schedC4 (mkInit ["d", "d"] 2 [])).shared.probed = ["d", "d"]
  ∧ (crun envC4 false schedC4 (mkInit ["d", "d"] 2 [])).shared.upsertCount = 2
  ∧ (crun envC4 false schedC4 (mkInit ["d", "d"] 2 [])).shared.store = [("d", false)]
  ∧ allDone (crun envC4 false schedC4 (mkInit ["d", "d"] 2 []))
  ∧ (∀ (env : Env) (outCfg : Bool) (input : List String) (P : Nat)
        (sched : List Nat) (d : String),
       Store.rowCount (crun env outCfg sched (mkInit input P [])).shared.store d ≤ 1) := by
  refine ⟨by decide, by decide, by decide, by decide, by decide, ?_⟩
  intro env outCfg input P sched d
  refine Store.rowCount_le_one_of_keysNodup _ d ?_
  exact keysNodup_crun env outCfg sched (mkInit input P []) (by simp [mkInit, Store.keysNodup])

/-- C5: idempotence of the batch run — for every input list (the work
items after optional prefixing) and every store in which each input
domain already has a record, re-running the full batch under any
schedule and any worker count performs zero network probes, and leaves
the store, the result stream and the output artifact untouched. -/
theorem claimC5 (env : Env) (outCfg : Bool) (input : List String) (P : Nat)
    (st0s : Store) (sched : List Nat)
    (hf : ∀ n, env.lookupFault n = false)
    (hknown : ∀ x ∈ input, (Store.lookup st0s x).isSome = true) :
    (crun env outCfg sched (mkInit input P st0s)).shared.probed = []
  ∧ (crun env outCfg sched (mkInit input P st0s)).shared.store = st0s
  ∧ (crun env outCfg sched (mkInit input P st0s)).shared.stream = []
  ∧ (crun env outCfg sched (mkInit input P st0s)).shared.outLines = [] :=
  C5_run env outCfg input P st0s sched hf hknown

theorem claimC5_witness :
    (crun envErr false [0, 0, 0, 0, 0, 0, 0]
        (mkInit ["a", "b"] 1 [("a", true), ("b", false)])).shared.probed = []
  ∧ (crun envErr false [0, 0, 0, 0, 0, 0, 0]
        (mkInit ["a", "b"] 1 [("a", true), ("b", false)])).shared.store
      = [("a", true), ("b", false)]
  ∧ (crun envErr false [0, 0, 0, 0, 0, 0, 0]
        (mkInit ["a", "b"] 1 [("a", true), ("b", false)])).shared.stream = []
  ∧ (crun envErr false [0, 0, 0, 0, 0, 0, 0]
        (mkInit ["a", "b"] 1 [("a", true), ("b", false)])).shared.outLines = [] :=
  claimC5 envErr false ["a", "b"] 1 [("a", true), ("b", false)] [0, 0, 0, 0, 0, 0, 0]
    (fun n => rfl) (by decide)

/-- C6: round-trip through the store — for a domain with no prior
record, a run that persists a non-timeout outcome makes a subsequent
lookup return exactly that classification: `some hasOIDC`, where
`hasOIDC` is true exactly when the probe classified the domain as
Found. -/
theorem claimC6 (env : Env) (outCfg : Bool) (d : String) (st0s : Store)
    (h0 : Store.lookup st0s d = none)
    (hlf : env.lookupFault 0 = false)
    (ht : (testOIDCWithTimeout d (env.net 0 d)).timedOut = false)
    (huf : env.upsertFault 0 = false) :
    Store.lookup (crun env outCfg (List.replicate 7 0) (mkInit [d] 1 st0s)).shared.store d
      = some ((testOIDCWithTimeout d (env.net 0 d)).hasOIDC)
  ∧ ((testOIDCWithTimeout d (env.net 0 d)).hasOIDC = true
      ↔ classify (env.net 0 d) = Classification.Found) := by
  have hlook : dbLookup env 0 st0s d = none := by simp [dbLookup, hlf, h0]
  constructor
  · rw [singleRun env outCfg d st0s hlook ht]
    rw [huf]
    simp only [Bool.false_eq_true, if_false]
    exact Store.lookup_upsert_self st0s d _
  · cases hnet : env.net 0 d with
    | reqError => simp [testOIDCWithTimeout, classify]
    | doTimeout =>
        rw [hnet] at ht
        simp [testOIDCWithTimeout] at ht
    | doError => simp [testOIDCWithTimeout, classify]
    | completed status ct =>
        by_cases hc : (status = 200 ∧ strContains ct "application/json" = true)
        · simp [testOIDCWithTimeout, classify, hc]
        · simp [testOIDCWithTimeout, classify, hc]

theorem claimC6_witness :
    Store.lookup (crun envOK false (List.replicate 7 0) (mkInit ["a"] 1 [])).shared.store "a"
      = some ((testOIDCWithTimeout "a" (envOK.net 0 "a")).hasOIDC)
  ∧ ((testOIDCWithTimeout "a" (envOK.net 0 "a")).hasOIDC = true
      ↔ classify (envOK.net 0 "a") = Classification.Found) :=
  claimC6 envOK false "a" [] (by decide) (by decide) (by decide) (by decide)

/-- C7: a transport error (DNS/TLS/connection failure before any
response, `client.Do` failing without the deadline having been
exceeded) yields exactly the same result triple as a completed
non-matching exchange, is persisted as `has_oidc = false`, and is
reported with the same "no OIDC endpoint" line as NotFound; only a
timed-out result is reported as "request timed out (skipped)" and only a
found result as "OIDC endpoint found". -/
theorem claimC7 (env : Env) (outCfg : Bool) (d : String) (st0s : Store)
    (hnet : env.net 0 d = NetResult.doError)
    (h0 : Store.lookup st0s d = none)
    (hlf : env.lookupFault 0 = false)
    (huf : env.upsertFault 0 = false) :
    classify NetResult.doError = Classification.TransportError
  ∧ testOIDCWithTimeout d NetResult.doError = testOIDCWithTimeout d (NetResult.completed 404 "")
  ∧ Store.lookup (crun env outCfg (List.replicate 7 0) (mkInit [d] 1 st0s)).shared.store d
      = some false
  ∧ reporterOutput (crun env outCfg (List.replicate 7 0) (mkInit [d] 1 st0s)).shared.stream
      = [d ++ ": no OIDC endpoint ❌"]
  ∧ reportLine ⟨d, false, "", true⟩ = d ++ ": request timed out (skipped) ⏰"
  ∧ reportLine ⟨d, true, oidcConfigURL d, false⟩ = d ++ ": OIDC endpoint found ✅" := by
  have hlook : dbLookup env 0 st0s d = none := by simp [dbLookup, hlf, h0]
  have ht : (testOIDCWithTimeout d (env.net 0 d)).timedOut = false := by rw [hnet]; rfl
  have hrun := singleRun env outCfg d st0s hlook ht
  refine ⟨rfl, rfl, ?_, ?_, rfl, rfl⟩
  · rw [hrun, hnet, huf]
    simp only [Bool.false_eq_true, if_false]
    rw [show (testOIDCWithTimeout d NetResult.doError).hasOIDC = false from rfl]
    exact Store.lookup_upsert_self st0s d false
  · rw [hrun, hnet]
    simp [reporterOutput, reportLine,
      show (testOIDCWithTimeout d NetResult.doError).hasOIDC = false from rfl]

theorem claimC7_witness :
    classify NetResult.doError = Classification.TransportError
  ∧ testOIDCWithTimeout "a" NetResult.doError
      = testOIDCWithTimeout "a" (NetResult.completed 404 "")
  ∧ Store.lookup (crun envErr false (List.replicate 7 0) (mkInit ["a"] 1 [])).shared.store "a"
      = some false
  ∧ reporterOutput (crun envErr false (List.replicate 7 0) (mkInit ["a"] 1 [])).shared.stream
      = ["a" ++ ": no OIDC endpoint ❌"]
  ∧ reportLine ⟨"a", false, "", true⟩ = "a" ++ ": request timed out (skipped) ⏰"
  ∧ reportLine ⟨"a", true, oidcConfigURL "a", false⟩ = "a" ++ ": OIDC endpoint found ✅" :=
  claimC7 envErr false "a" [] rfl (by decide) (by decide) (by decide)

/-- C8: when the store upsert of a non-timeout outcome fails, the store
is left unchanged (the outcome is not durably recorded) but the worker
continues exactly as on success — towards the output append when the
outcome was found, and in any case towards emitting the outcome on the
result stream; in the concrete two-domain run whose first upsert fails,
the run still completes, the remaining domain is processed and
persisted, both outcomes appear on the stream and are reported, and the
found URL is still appended to the output artifact. -/
theorem claimC8 :
    (∀ (env : Env) (outCfg : Bool) (s : CState) (w : Nat) (r : DomainResult),
       s.workers[w]? = some (WPhase.toSink r) →
       env.upsertFault s.shared.upsertCount = true →
       (cstep env outCfg s w).shared.store = s.shared.store
       ∧ (cstep env outCfg s w).workers
           = s.workers.set w (if (r.hasOIDC && outCfg) = true
                              then WPhase.toAppend r else WPhase.toEmit r)
       ∧ (cstep env outCfg s w).queue = s.queue
       ∧ (cstep env outCfg s w).shared.stream = s.shared.stream)
  ∧ allDone (crun envC8 true (List.replicate 14 0) (mkInit ["a", "b"] 1 []))
  ∧ (crun envC8 true (List.replicate 14 0) (mkInit ["a", "b"] 1 [])).shared.store
      = [("b", false)]
  ∧ (crun envC8 true (List.replicate 14 0) (mkInit ["a", "b"] 1 [])).shared.stream
      = [⟨"a", true, oidcConfigURL "a", false⟩, ⟨"b", false, "", false⟩]
  ∧ (crun envC8 true (List.replicate 14 0) (mkInit ["a", "b"] 1 [])).shared.outLines
      = [oidcConfigURL "a"]
  ∧ reporterOutput
        (crun envC8 true (List.replicate 14 0) (mkInit ["a", "b"] 1 [])).shared.stream
      = ["a: OIDC endpoint found ✅", "b: no OIDC endpoint ❌"] := by
  refine ⟨?_, by decide, by decide, by decide, by decide, by decide⟩
  intro env outCfg s w r hw hfau
  rw [cstep_of_phase env outCfg s w _ hw]
  by_cases hb : (r.hasOIDC && outCfg) = true
  · refine ⟨?_, ?_, ?_, ?_⟩ <;> simp [stepPhase, hfau, hb]
  · simp only [Bool.not_eq_true] at hb
    refine ⟨?_, ?_, ?_, ?_⟩ <;> simp [stepPhase, hfau, hb]

theorem claimC8_witness :
    (cstep envC8 true stItemSink 0).shared.store = stItemSink.shared.store
  ∧ (cstep envC8 true stItemSink 0).workers
      = stItemSink.workers.set 0
          (if ((⟨"a", true, "u", false⟩ : DomainResult).hasOIDC && true) = true
           then WPhase.toAppend ⟨"a", true, "u", false⟩
           else WPhase.toEmit ⟨"a", true, "u", false⟩)
  ∧ (cstep envC8 true stItemSink 0).queue = stItemSink.queue
  ∧ (cstep envC8 true stItemSink 0).shared.stream = stItemSink.shared.stream :=
  claimC8.1 envC8 true stItemSink 0 ⟨"a", true, "u", false⟩ (by decide) (by decide)

/-- C9: the entire (trimmed, prefixed) input list is enqueued before any
worker starts consuming; there is a schedule completing the run (the
workers all finish, after which the supervising task closes the result
stream), and in every completed run each input item was retired exactly
once — as an already-known line or a streamed outcome — and the
reporter emits exactly one line per streamed outcome. -/
theorem claimC9 (env : Env) (outCfg : Bool) (pfx : String) (rawLines : List String)
    (P : Nat) (st0s : Store) (hP : 1 ≤ P) :
    (mkInit (parseDomains pfx rawLines) P st0s).queue = parseDomains pfx rawLines
  ∧ (∃ sched, allDone (crun env outCfg sched (mkInit (parseDomains pfx rawLines) P st0s)))
  ∧ (∀ sched,
       allDone (crun env outCfg sched (mkInit (parseDomains pfx rawLines) P st0s)) →
       (crun env outCfg sched
            (mkInit (parseDomains pfx rawLines) P st0s)).shared.knownLines.length
         + (crun env outCfg sched
            (mkInit (parseDomains pfx rawLines) P st0s)).shared.stream.length
         = (parseDomains pfx rawLines).length
       ∧ (reporterOutput (crun env outCfg sched
            (mkInit (parseDomains pfx rawLines) P st0s)).shared.stream).length
         = (crun env outCfg sched
            (mkInit (parseDomains pfx rawLines) P st0s)).shared.stream.length) := by
  refine ⟨rfl, existsCompleting env outCfg _ P st0s hP, fun sched hdone => ⟨?_, ?_⟩⟩
  · exact items_run env outCfg _ P st0s sched hdone
  · simp [reporterOutput]

theorem claimC9_witness :
    ((mkInit (parseDomains "" ([] : List String)) 2 []).queue = parseDomains "" [])
  ∧ ((crun envErr false [0, 1]
        (mkInit (parseDomains "" ([] : List String)) 2 [])).shared.knownLines.length
      + (crun envErr false [0, 1]
        (mkInit (parseDomains "" ([] : List String)) 2 [])).shared.stream.length
      = (parseDomains "" ([] : List String)).length) := by
  have h := claimC9 envErr false "" [] 2 [] (by decide)
  exact ⟨h.1, (h.2.2 [0, 1] (by decide)).1⟩

/-- C10: any error of the row query — not only the no-rows case — makes
the worker treat the domain as unknown: it proceeds to the network probe
without reporting the domain known, and, on a non-timeout outcome, its
upsert can overwrite an existing record the failed lookup could not see,
as the concrete run shows (the stored `("a", true)` row becomes
`("a", false)` after a faulted lookup and a 404 probe). -/
theorem claimC10 :
    (∀ (env : Env) (outCfg : Bool) (s : CState) (w : Nat) (d : String),
       s.workers[w]? = some (WPhase.gotItem d) →
       env.lookupFault s.shared.lookupCount = true →
       (cstep env outCfg s w).workers = s.workers.set w (WPhase.toProbe d)
       ∧ (cstep env outCfg s w).shared.store = s.shared.store
       ∧ (cstep env outCfg s w).shared.knownLines = s.shared.knownLines)
  ∧ (crun envC10 false (List.replicate 7 0) (mkInit ["a"] 1 [("a", true)])).shared.store
      = [("a", false)]
  ∧ (crun envC10 false (List.replicate 7 0) (mkInit ["a"] 1 [("a", true)])).shared.probed
      = ["a"]
  ∧ allDone (crun envC10 false (List.replicate 7 0) (mkInit ["a"] 1 [("a", true)])) := by
  refine ⟨?_, by decide, by decide, by decide⟩
  intro env outCfg s w d hw hfau
  have hlk : dbLookup env s.shared.lookupCount s.shared.store d = none := by
    simp [dbLookup, hfau]
  rw [cstep_of_phase env outCfg s w _ hw]
  refine ⟨?_, ?_, ?_⟩ <;> simp [stepPhase, hlk]

theorem claimC10_witness :
    (cstep envC10 false stItemFault 0).workers
      = stItemFault.workers.set 0 (WPhase.toProbe "a")
  ∧ (cstep envC10 false stItemFault 0).shared.store = stItemFault.shared.store
  ∧ (cstep envC10 false stItemFault 0).shared.knownLines = stItemFault.shared.knownLines :=
  claimC10.1 envC10 false stItemFault 0 "a" (by decide) (by decide)
